import Mathlib

/-!
Verification of the clause-extraction-and-diff core of
`business_contract_validation.py`.

Shallow embedding of the core functions of the repository's single source
file.  Text is modelled as `List Char`.  Python's `re` character classes are
modelled as follows: `\s` (and `str.strip`'s whitespace set) is the Unicode
whitespace set recognised by CPython's `re` module on `str` patterns,
enumerated in `pySpaceCodes`; `\d` is modelled on the ASCII decimal digits
(the model's alphabet does not include non-ASCII decimal digits, which the
claims under study do not exercise).

The embedded functions:
* `preprocess_text`        — `re.sub(r"\s+", " ", text)` (lines 31-32);
* `extract_clauses_and_titles` — `re.findall` of the pattern
  `(\d+(\.\d+)*)\.\s+([^\n]+)` followed by a strip of the title group
  (lines 47-50);
* `compare_clauses`        — dict building and the two comparison passes
  (lines 54-75);
* `extract_detailed_summary` — length short-circuit, summarizer call and
  error conversion (lines 79-100); the external summarizer pipeline and the
  per-entity word-boundary substitution (an external collaborator and a
  cosmetic text substitution respectively) are passed as opaque parameters.

The regex scanner is derived from the backtracking semantics of the pattern
`(\d+(\.\d+)*)\.\s+([^\n]+)` under CPython's leftmost, greedy-with-
backtracking matching discipline:
* `\d+` and each `\.\d+` group always consume a maximal digit run (shrinking
  a digit run leaves a digit where a `.` or whitespace is required, so
  backtracking inside the identifier can never succeed);
* after the identifier, the literal `\.` must match, then `\s+` consumes a
  maximal whitespace run and `[^\n]+` must match at least one character; when
  the text ends right after the whitespace run, the engine backtracks `\s+`
  to the last position inside the run whose character is not a newline
  (`lastNonNl`), so that `[^\n]+` can match that single character;
* `re.findall` scans left to right, advancing one character after a failed
  attempt and past the whole match after a successful one.  The scanner
  `scanAux` is totalised with a fuel argument; a successful match always
  consumes at least one character, so fuel equal to the text length is
  sufficient.
-/

/-- Code points matched by Python's `\s` on `str` patterns (also the set
stripped by `str.strip()`). -/
def pySpaceCodes : List Nat :=
  [0x9, 0xA, 0xB, 0xC, 0xD, 0x1C, 0x1D, 0x1E, 0x1F, 0x20, 0x85, 0xA0,
   0x1680, 0x2000, 0x2001, 0x2002, 0x2003, 0x2004, 0x2005, 0x2006, 0x2007,
   0x2008, 0x2009, 0x200A, 0x2028, 0x2029, 0x202F, 0x205F, 0x3000]

/-- Python `\s` (whitespace) character class. -/
def isPySpace (c : Char) : Bool := pySpaceCodes.contains c.toNat

/-- Python `\d` character class, on the ASCII fragment of the alphabet. -/
def isPyDigit (c : Char) : Bool := 48 ≤ c.toNat && c.toNat ≤ 57

/-- The `[^\n]` character class: any character other than a newline. -/
def notNl (c : Char) : Bool := c ≠ '\n'

/-- Python `str.strip()`: drop leading and trailing whitespace. -/
def pyStrip (l : List Char) : List Char :=
  ((l.dropWhile isPySpace).reverse.dropWhile isPySpace).reverse

/-- Continuation of the maximal match of `\d+(\.\d+)*` once at least one
digit has been consumed: consumes further digits of the current run, and a
`.` only when it is immediately followed by a digit.  Returns the consumed
characters and the remaining text. -/
def identAux : List Char → List Char × List Char
  | [] => ([], [])
  | c :: rest =>
    if isPyDigit c then
      let pr := identAux rest
      (c :: pr.1, pr.2)
    else if c = '.' then
      match rest with
      | d :: rest2 =>
        if isPyDigit d then
          let pr := identAux rest2
          (c :: d :: pr.1, pr.2)
        else ([], c :: rest)
      | [] => ([], c :: rest)
    else ([], c :: rest)

/-- Split `l` as `pre ++ c :: suf` where `c` is the LAST character of `l`
that is not a newline (so `suf` is all newlines), if any such character
exists.  This is where the engine backtracks `\s+` to when the text ends
immediately after the whitespace run. -/
def lastNonNl : List Char → Option (List Char × Char × List Char)
  | [] => none
  | c :: rest =>
    match lastNonNl rest with
    | some (pre, d, suf) => some (c :: pre, d, suf)
    | none => if notNl c then some ([], c, rest) else none

/-- Match `\s+([^\n]+)` at `r2` (the text right after the identifier's final
period): requires a leading whitespace character; the `\s+` is greedy and
backtracks against the mandatory `[^\n]+`.  Returns the stripped title group
and the text after the whole match. -/
def titlePart (r2 : List Char) : Option (List Char × List Char) :=
  match r2 with
  | [] => none
  | w0 :: r2tl =>
    if isPySpace w0 then
      match (w0 :: r2tl).dropWhile isPySpace with
      | t :: r4 =>
        some (pyStrip ((t :: r4).takeWhile notNl), (t :: r4).dropWhile notNl)
      | [] =>
        match lastNonNl r2tl with
        | some (_, c2, suf) => some (pyStrip [c2], suf)
        | none => none
    else none

/-- Attempt a match of `(\d+(\.\d+)*)\.\s+([^\n]+)` anchored at the head of
`s`.  On success returns the (identifier, stripped title) pair and the text
after the match. -/
def matchAt (s : List Char) : Option ((List Char × List Char) × List Char) :=
  match s with
  | [] => none
  | c :: rest =>
    if isPyDigit c then
      match (identAux rest).2 with
      | r1h :: r2 =>
        if r1h = '.' then
          match titlePart r2 with
          | some (ti, a) => some ((c :: (identAux rest).1, ti), a)
          | none => none
        else none
      | [] => none
    else none

/-- The `re.findall` scan: try a match at each position left to right,
resuming after the end of each successful match.  Totalised with fuel; each
successful match consumes at least one character, so fuel equal to the text
length is sufficient. -/
def scanAux : Nat → List Char → List (List Char × List Char)
  | 0, _ => []
  | _ + 1, [] => []
  | fuel + 1, c :: rest =>
    match matchAt (c :: rest) with
    | some (p, a) => p :: scanAux fuel a
    | none => scanAux fuel rest

/-- Source function `extract_clauses_and_titles` (lines 47-50): find all matches of
`(\d+(\.\d+)*)\.\s+([^\n]+)` and return the (group 1, stripped group 3)
pairs in match order. -/
def extract_clauses_and_titles (text : List Char) : List (List Char × List Char) :=
  scanAux text.length text

/-- Run-collapsing state machine behind `preprocess_text`: the flag records
whether the previous character was whitespace (i.e. the scanner is inside a
run whose single replacement space has already been emitted). -/
def ppAux : Bool → List Char → List Char
  | _, [] => []
  | inRun, c :: rest =>
    if isPySpace c then
      (if inRun then [] else [' ']) ++ ppAux true rest
    else c :: ppAux false rest

/-- Source function `preprocess_text` (lines 31-32): `re.sub(r"\s+", " ", text)` —
every maximal run of whitespace is replaced by a single space. -/
def preprocess_text (text : List Char) : List Char := ppAux false text

/-- Membership test of a key in a Python dict modelled as an association
list (`clause in d`). -/
def hasKey (d : List (List Char × List Char)) (k : List Char) : Bool :=
  d.any (fun p => p.1 = k)

/-- Lookup in a Python dict modelled as an association list. -/
def dictLookup (d : List (List Char × List Char)) (k : List Char) : Option (List Char) :=
  (d.find? (fun p => p.1 = k)).map (fun p => p.2)

/-- Total indexing `d[k]`, used by the source only where the key is known to
be present. -/
def dictGet (d : List (List Char × List Char)) (k : List Char) : List Char :=
  (dictLookup d k).getD []

/-- Python dict insertion semantics: updating an existing key keeps its
position, a new key is appended at the end. -/
def dictInsert (d : List (List Char × List Char)) (k v : List Char) :
    List (List Char × List Char) :=
  if d.any (fun p => p.1 = k) then
    d.map (fun p => if p.1 = k then (k, v) else p)
  else d ++ [(k, v)]

/-- A dict comprehension `{clause: title for clause, title in l}`: insert
the pairs in order, last write wins, iteration order is first-insertion
order. -/
def buildDict (l : List (List Char × List Char)) : List (List Char × List Char) :=
  l.foldl (fun d p => dictInsert d p.1 p.2) []

/-- The deviation kind string for a clause missing from the contract. -/
def missingMsg : List Char := "Missing in Contract".data

/-- The deviation kind prefix for a retitled clause; the contract's title is
appended after it. -/
def differentMsg : List Char := "Different in Contract: ".data

/-- The deviation kind string for a clause absent from the template. -/
def extraMsg : List Char := "Extra in Contract".data

/-- Source function `compare_clauses` (lines 54-75): build the two dicts, then two
passes — template-side missing/retitled clauses, then contract-side extra
clauses. -/
def compare_clauses (template_clauses contract_clauses : List (List Char × List Char)) :
    List (List Char × List Char × List Char) :=
  let template_clause_dict := buildDict template_clauses
  let contract_clause_dict := buildDict contract_clauses
  let pass1 := template_clause_dict.filterMap (fun p =>
    if hasKey contract_clause_dict p.1 = false then
      some (p.1, p.2, missingMsg)
    else if dictGet contract_clause_dict p.1 ≠ p.2 then
      some (p.1, p.2, differentMsg ++ dictGet contract_clause_dict p.1)
    else none)
  let pass2 := contract_clause_dict.filterMap (fun p =>
    if hasKey template_clause_dict p.1 = false then
      some (p.1, p.2, extraMsg)
    else none)
  pass1 ++ pass2

/-- The sentinel message returned for too-short input. -/
def shortMsg : List Char := "Input text is too short for summarization.".data

/-- Source function `extract_detailed_summary` (lines 79-100).  The external
summarizer pipeline is the parameter `summarize` (raising an exception is
modelled as `Except.error` carrying the message text of the exception); the
per-entity word-boundary regex substitution of the highlight loop (lines
91-98) is the opaque parameter `substituteEntity`, folded over the entity
list exactly as the source's `for entity in entities` loop. -/
def extract_detailed_summary
    (summarize : List Char → Except (List Char) (List Char))
    (substituteEntity : List Char → List Char → List Char)
    (entities : List (List Char)) (text : List Char) : List Char :=
  let text := preprocess_text text
  if text.length < 50 then shortMsg
  else
    match summarize text with
    | Except.error e => "Summary generation failed: ".data ++ e
    | Except.ok text_summary =>
        "Text Summary:\n".data ++
          entities.foldl (fun acc ent => substituteEntity ent acc) text_summary ++
          "\n\n".data

/-!
## Specification-side definitions

These definitions follow the wording of the specification / claims and are
compared against the source-derived definitions above.
-/

/-- Spec wording: the lookup "maps each identifier to the title of its last
occurrence in the list" (last-write-wins). -/
def lookupLast (l : List (List Char × List Char)) (k : List Char) : Option (List Char) :=
  match l with
  | [] => none
  | p :: rest =>
    match lookupLast rest k with
    | some v => some v
    | none => if p.1 = k then some p.2 else none

/-- Spec wording: the iteration order of a last-write-wins lookup built from
a pair list is the order of each identifier's first occurrence. -/
def firstKeys (l : List (List Char × List Char)) : List (List Char) :=
  l.foldl (fun acc p => if p.1 ∈ acc then acc else acc ++ [p.1]) []

/-- The comparator as worded by the claim: first pass iterates the template
lookup in its iteration order emitting missing/retitled deviations, second
pass iterates the contract lookup emitting extra deviations. -/
def comparatorSpec (t c : List (List Char × List Char)) :
    List (List Char × List Char × List Char) :=
  ((firstKeys t).filterMap (fun k =>
    match lookupLast t k, lookupLast c k with
    | some tt, none => some (k, tt, missingMsg)
    | some tt, some ct => if tt ≠ ct then some (k, tt, differentMsg ++ ct) else none
    | none, _ => none))
  ++ ((firstKeys c).filterMap (fun k =>
    match lookupLast c k, lookupLast t k with
    | some ct, none => some (k, ct, extraMsg)
    | _, _ => none))

/-- The dotted-identifier grammar `\d+(\.\d+)*` as a state machine; the flag
records whether at least one digit of the current digit group has been
seen. -/
def dottedAux : Bool → List Char → Bool
  | seen, [] => seen
  | seen, c :: rest =>
    if isPyDigit c then dottedAux true rest
    else if c = '.' then seen && dottedAux false rest
    else false

/-- A dotted numeric identifier: period-separated nonempty digit groups. -/
def isDottedIdent (l : List Char) : Bool := dottedAux false l

/-- The claim's identifier grammar: period-separated components that are
positive integers — every component a nonempty digit group containing at
least one nonzero digit.  The two flags record, for the current component,
whether a digit has been seen and whether a nonzero digit has been seen. -/
def dottedPosAux : Bool → Bool → List Char → Bool
  | seen, pos, [] => seen && pos
  | seen, pos, c :: rest =>
    if isPyDigit c then dottedPosAux true (pos || decide (c ≠ '0')) rest
    else if c = '.' then seen && pos && dottedPosAux false false rest
    else false

/-- Claim wording: every period-separated component of the identifier is a
positive integer. -/
def identAllPositive (l : List Char) : Bool := dottedPosAux false false l

/-- Whether a list has no two adjacent whitespace characters. -/
def noAdjacentWS (l : List Char) : Prop :=
  l.Chain' (fun a b => ¬ (isPySpace a = true ∧ isPySpace b = true))

/-!
## Lemmas about `preprocess_text`
-/

/-- Invariant characterising outputs of `ppAux`: every whitespace character
is a single space and never follows another whitespace character; the flag
records whether the previous character was whitespace. -/
def goodState : Bool → List Char → Bool
  | _, [] => true
  | b, c :: rest =>
    if isPySpace c then (decide (c = ' ') && !b) && goodState true rest
    else goodState false rest

theorem ppAux_goodState (l : List Char) : ∀ b, goodState b (ppAux b l) = true := by
  have hsp : isPySpace ' ' = true := by decide
  induction l with
  | nil => intro b; rfl
  | cons c rest ih =>
    intro b
    by_cases hc : isPySpace c
    · cases b with
      | false => simp [ppAux, goodState, hc, hsp, ih true]
      | true => simp [ppAux, hc, ih true]
    · simp [ppAux, goodState, hc, ih false]

theorem goodState_fix (l : List Char) : ∀ b, goodState b l = true → ppAux b l = l := by
  induction l with
  | nil => intro b _; rfl
  | cons c rest ih =>
    intro b h
    by_cases hc : isPySpace c
    · simp only [goodState, hc, if_pos] at h
      obtain ⟨⟨hsp, hb⟩, hrest⟩ := by simpa [Bool.and_eq_true] using h
      subst hb
      simp only [ppAux, hc, if_pos]
      simp [hsp, ih true hrest]
    · simp only [goodState, hc, if_neg, ite_false] at h
      simp [ppAux, hc, ih false h]

theorem goodState_chain (l : List Char) :
    ∀ b, goodState b l = true → noAdjacentWS l := by
  induction l with
  | nil => intro b _; simp [noAdjacentWS]
  | cons c rest ih =>
    intro b h
    by_cases hc : isPySpace c
    · simp only [goodState, hc, if_pos, Bool.and_eq_true] at h
      obtain ⟨⟨hsp, hb⟩, hrest⟩ := h
      refine List.chain'_cons'.2 ⟨?_, ih true hrest⟩
      cases rest with
      | nil => intro d hd; simp at hd
      | cons d0 rest2 =>
        intro d hd
        simp only [List.head?_cons, Option.mem_def, Option.some.injEq] at hd
        subst hd
        intro hcontra
        simp only [goodState, hcontra.2, if_pos, Bool.and_eq_true] at hrest
        simp at hrest
    · simp only [goodState, hc, if_neg, ite_false] at h
      refine List.chain'_cons'.2 ⟨?_, ih false h⟩
      intro d _ hcontra
      exact hc hcontra.1

theorem ppAux_length_le (l : List Char) : ∀ b, (ppAux b l).length ≤ l.length := by
  induction l with
  | nil => intro b; simp [ppAux]
  | cons c rest ih =>
    intro b
    by_cases hc : isPySpace c
    · cases b with
      | false => simpa [ppAux, hc] using Nat.succ_le_succ (ih true)
      | true =>
        simp only [ppAux, hc, if_pos, if_true, List.nil_append]
        exact Nat.le_succ_of_le (ih true)
    · simpa [ppAux, hc] using Nat.succ_le_succ (ih false)

theorem preprocess_length_le (t : List Char) :
    (preprocess_text t).length ≤ t.length :=
  ppAux_length_le t false

/-!
## Lemmas about the dict model
-/

theorem hasKey_iff_mem (d : List (List Char × List Char)) (k : List Char) :
    hasKey d k = true ↔ k ∈ d.map (fun p => p.1) := by
  simp [hasKey, List.any_eq_true, List.mem_map]

theorem dictLookup_nil (k : List Char) : dictLookup [] k = none := rfl

theorem dictLookup_cons (p : List Char × List Char)
    (d : List (List Char × List Char)) (k : List Char) :
    dictLookup (p :: d) k = if p.1 = k then some p.2 else dictLookup d k := by
  by_cases h : p.1 = k
  · rw [if_pos h]
    unfold dictLookup
    rw [List.find?_cons_of_pos _ (by simp [h])]
    rfl
  · rw [if_neg h]
    unfold dictLookup
    rw [List.find?_cons_of_neg _ (by simp [h])]

theorem dictLookup_update (d : List (List Char × List Char)) (a v k : List Char) :
    dictLookup (d.map (fun p => if p.1 = a then (a, v) else p)) k =
      if k = a then (if hasKey d a then some v else none) else dictLookup d k := by
  induction d with
  | nil => by_cases hka : k = a <;> simp [dictLookup, hasKey, hka]
  | cons p d ih =>
    have hkeyc : hasKey (p :: d) a = (decide (p.1 = a) || hasKey d a) := by
      simp [hasKey, List.any_cons]
    by_cases hpa : p.1 = a
    · simp only [List.map_cons, if_pos hpa, dictLookup_cons, ih, hkeyc, hpa, decide_True,
        Bool.true_or]
      by_cases hka : k = a
      · subst hka
        simp
      · have hak : ¬ (a = k) := fun h => hka h.symm
        have hpk : ¬ (p.1 = k) := by rw [hpa]; exact hak
        simp [hka, hak, hpk]
    · simp only [List.map_cons, if_neg hpa, dictLookup_cons, ih, hkeyc,
        decide_eq_true_eq]
      have : (decide (p.1 = a) || hasKey d a) = hasKey d a := by
        simp [hpa]
      rw [this]
      by_cases hpk : p.1 = k
      · have hka : ¬ (k = a) := by rw [← hpk]; exact hpa
        simp [hpk, hka]
      · simp [hpk]

theorem dictLookup_append_single (d : List (List Char × List Char)) (a v k : List Char) :
    dictLookup (d ++ [(a, v)]) k =
      match dictLookup d k with
      | some w => some w
      | none => if k = a then some v else none := by
  induction d with
  | nil =>
    by_cases hka : k = a
    · subst hka
      simp [dictLookup_cons, dictLookup_nil]
    · have : ¬ (a = k) := fun h => hka h.symm
      simp [dictLookup_cons, dictLookup_nil, this, hka]
  | cons p d ih =>
    by_cases hpk : p.1 = k
    · simp [List.cons_append, dictLookup_cons, hpk]
    · simpa [List.cons_append, dictLookup_cons, hpk] using ih

theorem dictLookup_insert (d : List (List Char × List Char)) (a v k : List Char) :
    dictLookup (dictInsert d a v) k = if k = a then some v else dictLookup d k := by
  unfold dictInsert
  by_cases hany : d.any (fun p => p.1 = a)
  · rw [if_pos hany, dictLookup_update]
    have : hasKey d a = true := hany
    by_cases hka : k = a <;> simp [hka, this]
  · rw [if_neg hany, dictLookup_append_single]
    by_cases hka : k = a
    · subst hka
      have : dictLookup d k = none := by
        unfold dictLookup
        rw [Option.map_eq_none', List.find?_eq_none]
        intro p hp
        simp only [decide_eq_true_eq]
        intro hpk
        exact hany (List.any_eq_true.2 ⟨p, hp, by simp [hpk]⟩)
      simp [this]
    · cases h : dictLookup d k <;> simp [hka]

theorem dictLookup_foldl_insert (l : List (List Char × List Char)) :
    ∀ (d : List (List Char × List Char)) (k : List Char),
      dictLookup (l.foldl (fun d p => dictInsert d p.1 p.2) d) k =
        match lookupLast l k with
        | some v => some v
        | none => dictLookup d k := by
  induction l with
  | nil => intro d k; simp [lookupLast]
  | cons p l ih =>
    intro d k
    rw [List.foldl_cons, ih, lookupLast]
    cases hl : lookupLast l k with
    | some v => simp
    | none =>
      rw [dictLookup_insert]
      by_cases hpk : p.1 = k
      · simp [hpk]
      · have : ¬ (k = p.1) := fun h => hpk h.symm
        simp [hpk, this]

/-- The dict built by `compare_clauses` realises the spec's last-write-wins
lookup. -/
theorem dictLookup_buildDict (l : List (List Char × List Char)) (k : List Char) :
    dictLookup (buildDict l) k = lookupLast l k := by
  rw [buildDict, dictLookup_foldl_insert]
  cases hl : lookupLast l k <;> simp [dictLookup]

theorem keys_insert (d : List (List Char × List Char)) (a v : List Char) :
    (dictInsert d a v).map (fun p => p.1) =
      if a ∈ d.map (fun p => p.1) then d.map (fun p => p.1)
      else d.map (fun p => p.1) ++ [a] := by
  unfold dictInsert
  by_cases hany : d.any (fun p => p.1 = a)
  · rw [if_pos hany, if_pos ((hasKey_iff_mem d a).1 hany), List.map_map]
    apply List.map_congr_left
    intro p _
    by_cases hpa : p.1 = a <;> simp [hpa]
  · have : ¬ a ∈ d.map (fun p => p.1) := fun h => hany ((hasKey_iff_mem d a).2 h)
    rw [if_neg hany, if_neg this]
    simp

theorem keys_foldl_insert (l : List (List Char × List Char)) :
    ∀ (d : List (List Char × List Char)),
      ((l.foldl (fun d p => dictInsert d p.1 p.2) d).map (fun p => p.1)) =
        l.foldl (fun acc p => if p.1 ∈ acc then acc else acc ++ [p.1])
          (d.map (fun p => p.1)) := by
  induction l with
  | nil => intro d; simp
  | cons p l ih =>
    intro d
    rw [List.foldl_cons, List.foldl_cons, ih, keys_insert]

/-- The iteration order of the dict built from a pair list is the
first-occurrence order of the keys. -/
theorem keys_buildDict (l : List (List Char × List Char)) :
    (buildDict l).map (fun p => p.1) = firstKeys l := by
  rw [buildDict, keys_foldl_insert, firstKeys]
  rfl

theorem nodup_keys_foldl_insert (l : List (List Char × List Char)) :
    ∀ (d : List (List Char × List Char)),
      ((d.map (fun p => p.1)).Nodup) →
      (((l.foldl (fun d p => dictInsert d p.1 p.2) d).map (fun p => p.1)).Nodup) := by
  induction l with
  | nil => intro d hd; simpa using hd
  | cons p l ih =>
    intro d hd
    rw [List.foldl_cons]
    apply ih
    rw [keys_insert]
    by_cases hmem : p.1 ∈ d.map (fun q => q.1)
    · simpa [hmem] using hd
    · rw [if_neg hmem]
      simp [List.nodup_append, hd, hmem]

/-- The keys of a built dict are distinct. -/
theorem nodup_keys_buildDict (l : List (List Char × List Char)) :
    ((buildDict l).map (fun p => p.1)).Nodup := by
  apply nodup_keys_foldl_insert
  simp

theorem dictLookup_eq_none_iff (d : List (List Char × List Char)) (k : List Char) :
    dictLookup d k = none ↔ ¬ k ∈ d.map (fun p => p.1) := by
  induction d with
  | nil => simp [dictLookup_nil]
  | cons p d ih =>
    rw [dictLookup_cons]
    by_cases hpk : p.1 = k
    · simp [hpk]
    · have : ¬ (k = p.1) := fun h => hpk h.symm
      simp [hpk, this, ih]

theorem hasKey_false_iff_lookup_none (d : List (List Char × List Char)) (k : List Char) :
    hasKey d k = false ↔ dictLookup d k = none := by
  rw [dictLookup_eq_none_iff]
  rw [← hasKey_iff_mem]
  cases h : hasKey d k <;> simp

theorem dictLookup_self (d : List (List Char × List Char))
    (hnd : ((d.map (fun p => p.1)).Nodup)) :
    ∀ p ∈ d, dictLookup d p.1 = some p.2 := by
  induction d with
  | nil => intro p hp; simp at hp
  | cons q d ih =>
    intro p hp
    rcases List.mem_cons.1 hp with rfl | hp'
    · simp [dictLookup_cons]
    · have hq : ¬ q.1 ∈ d.map (fun r => r.1) := by
        simp only [List.map_cons, List.nodup_cons] at hnd
        exact hnd.1
      have hne : ¬ (q.1 = p.1) := by
        intro h
        exact hq (h ▸ List.mem_map.2 ⟨p, hp', rfl⟩)
      have hnd' : ((d.map (fun r => r.1)).Nodup) := by
        simp only [List.map_cons, List.nodup_cons] at hnd
        exact hnd.2
      rw [dictLookup_cons, if_neg hne]
      exact ih hnd' p hp'

/-- A dict with distinct keys is recovered from its key order and its
lookup. -/
theorem dict_canon (d : List (List Char × List Char))
    (hnd : ((d.map (fun p => p.1)).Nodup)) :
    (d.map (fun p => p.1)).map (fun k => (k, dictGet d k)) = d := by
  rw [List.map_map]
  have : ∀ p ∈ d, ((fun k => (k, dictGet d k)) ∘ fun p => p.1) p = id p := by
    intro p hp
    simp only [Function.comp, id, dictGet, dictLookup_self d hnd p hp, Option.getD_some]
  rw [List.map_congr_left this, List.map_id]

/-!
## The comparator: equivalence with the spec's two-pass description
-/

theorem lookupLast_isSome_of_mem_firstKeys (l : List (List Char × List Char))
    (k : List Char) (h : k ∈ firstKeys l) : ∃ v, lookupLast l k = some v := by
  rw [← keys_buildDict] at h
  have hiff := dictLookup_eq_none_iff (buildDict l) k
  rw [dictLookup_buildDict] at hiff
  cases hv : lookupLast l k with
  | some v => exact ⟨v, rfl⟩
  | none => exact absurd h (hiff.1 hv)

theorem hasKey_buildDict_false_iff (l : List (List Char × List Char)) (k : List Char) :
    hasKey (buildDict l) k = false ↔ lookupLast l k = none := by
  rw [hasKey_false_iff_lookup_none, dictLookup_buildDict]

theorem dictGet_buildDict (l : List (List Char × List Char)) (k : List Char) :
    dictGet (buildDict l) k = (lookupLast l k).getD [] := by
  rw [dictGet, dictLookup_buildDict]

theorem pass1_eq (t c : List (List Char × List Char)) :
    ((buildDict t).filterMap (fun p =>
      if hasKey (buildDict c) p.1 = false then some (p.1, p.2, missingMsg)
      else if dictGet (buildDict c) p.1 ≠ p.2 then
        some (p.1, p.2, differentMsg ++ dictGet (buildDict c) p.1)
      else none)) =
    ((firstKeys t).filterMap (fun k =>
      match lookupLast t k, lookupLast c k with
      | some tt, none => some (k, tt, missingMsg)
      | some tt, some ct => if tt ≠ ct then some (k, tt, differentMsg ++ ct) else none
      | none, _ => none)) := by
  conv_lhs => rw [← dict_canon (buildDict t) (nodup_keys_buildDict t)]
  rw [List.filterMap_map, keys_buildDict]
  apply List.filterMap_congr
  intro k hk
  obtain ⟨tt, htt⟩ := lookupLast_isSome_of_mem_firstKeys t k hk
  have hget_t : dictGet (buildDict t) k = tt := by
    rw [dictGet_buildDict, htt]; rfl
  cases hc : lookupLast c k with
  | none =>
    have hmiss : hasKey (buildDict c) k = false := (hasKey_buildDict_false_iff c k).2 hc
    simp [Function.comp, hmiss, htt, hget_t]
  | some ct =>
    have hkey : ¬ (hasKey (buildDict c) k = false) := by
      rw [hasKey_buildDict_false_iff, hc]
      simp
    have hget_c : dictGet (buildDict c) k = ct := by
      rw [dictGet_buildDict, hc]; rfl
    simp only [Function.comp, hget_t, hget_c, htt, hc, hkey, if_neg hkey]
    by_cases he : tt = ct
    · simp [he]
    · have he' : ¬ (ct = tt) := fun h => he h.symm
      simp [he, he']

theorem pass2_eq (t c : List (List Char × List Char)) :
    ((buildDict c).filterMap (fun p =>
      if hasKey (buildDict t) p.1 = false then some (p.1, p.2, extraMsg) else none)) =
    ((firstKeys c).filterMap (fun k =>
      match lookupLast c k, lookupLast t k with
      | some ct, none => some (k, ct, extraMsg)
      | _, _ => none)) := by
  conv_lhs => rw [← dict_canon (buildDict c) (nodup_keys_buildDict c)]
  rw [List.filterMap_map, keys_buildDict]
  apply List.filterMap_congr
  intro k hk
  obtain ⟨ct, hct⟩ := lookupLast_isSome_of_mem_firstKeys c k hk
  have hget_c : dictGet (buildDict c) k = ct := by
    rw [dictGet_buildDict, hct]; rfl
  cases ht : lookupLast t k with
  | none =>
    have hmiss : hasKey (buildDict t) k = false := (hasKey_buildDict_false_iff t k).2 ht
    simp [Function.comp, hmiss, hct, hget_c]
  | some tt =>
    have hkey : ¬ (hasKey (buildDict t) k = false) := by
      rw [hasKey_buildDict_false_iff, ht]
      simp
    simp [Function.comp, hct, ht, hkey]

theorem compare_clauses_eq_spec (t c : List (List Char × List Char)) :
    compare_clauses t c = comparatorSpec t c := by
  simp only [compare_clauses, comparatorSpec]
  rw [pass1_eq, pass2_eq]

/-- A filterMap whose emitted elements keep the key of the element they come
from has a key list that is a sublist of the input's key list. -/
theorem keyed_filterMap_sublist
    (f : List Char × List Char → Option (List Char × List Char × List Char))
    (hf : ∀ p q, f p = some q → q.1 = p.1) (d : List (List Char × List Char)) :
    List.Sublist ((d.filterMap f).map (fun q => q.1)) (d.map (fun p => p.1)) := by
  induction d with
  | nil => simp
  | cons p d ih =>
    rw [List.filterMap_cons, List.map_cons]
    cases hfp : f p with
    | none => exact ih.cons _
    | some q =>
      rw [List.map_cons, hf p q hfp]
      exact ih.cons₂ _

/-!
## Theorems for the claims
-/

/-- C1: `compare_clauses` computes its deviations in exactly the claimed two
passes over the two last-write-wins lookups in their iteration orders —
missing then retitled template clauses first, then extra contract clauses —
and identifiers present in both lookups with the exact same title produce no
deviation; in particular identical singleton inputs yield no deviations. -/
theorem compare_clauses_two_pass :
    (∀ t c, compare_clauses t c = comparatorSpec t c) ∧
      compare_clauses [("1".data, "Scope".data)] [("1".data, "Scope".data)] = [] :=
  ⟨compare_clauses_eq_spec, by decide⟩

/-- C9: each identifier occurs in at most one deviation of the output of
`compare_clauses` — the first components of the deviation list are
pairwise distinct. -/
theorem compare_clauses_keys_nodup (t c : List (List Char × List Char)) :
    (((compare_clauses t c).map (fun dv => dv.1)).Nodup) := by
  simp only [compare_clauses]
  rw [List.map_append, List.nodup_append]
  have hf1 : ∀ p q, (fun p : List Char × List Char =>
      if hasKey (buildDict c) p.1 = false then some (p.1, p.2, missingMsg)
      else if dictGet (buildDict c) p.1 ≠ p.2 then
        some (p.1, p.2, differentMsg ++ dictGet (buildDict c) p.1)
      else none) p = some q → q.1 = p.1 := by
    intro p q h
    dsimp only at h
    split at h
    · cases h; rfl
    · split at h
      · cases h; rfl
      · cases h
  have hf2 : ∀ p q, (fun p : List Char × List Char =>
      if hasKey (buildDict t) p.1 = false then some (p.1, p.2, extraMsg)
      else none) p = some q → q.1 = p.1 := by
    intro p q h
    dsimp only at h
    split at h
    · cases h; rfl
    · cases h
  have hs1 := keyed_filterMap_sublist _ hf1 (buildDict t)
  have hs2 := keyed_filterMap_sublist _ hf2 (buildDict c)
  refine ⟨hs1.nodup (nodup_keys_buildDict t), hs2.nodup (nodup_keys_buildDict c), ?_⟩
  intro k hk1 hk2
  have hmem_t : k ∈ (buildDict t).map (fun p => p.1) := hs1.subset hk1
  obtain ⟨q, hq, rfl⟩ := List.mem_map.1 hk2
  obtain ⟨p, _, hfp⟩ := List.mem_filterMap.1 hq
  split at hfp
  · cases hfp
    rename_i hkey
    rw [← hasKey_iff_mem] at hmem_t
    rw [hmem_t] at hkey
    exact Bool.noConfusion hkey
  · cases hfp

/-- C5: the lookup used by the comparator maps each identifier to the title
of its last occurrence in the clause list, and the lookup built from the
clauses extracted from "1. A\n1. B\n" maps "1" to "B". -/
theorem buildDict_last_write_wins :
    (∀ l k, dictLookup (buildDict l) k = lookupLast l k) ∧
      dictLookup (buildDict (extract_clauses_and_titles ("1. A\n1. B\n".data))) "1".data
        = some "B".data :=
  ⟨dictLookup_buildDict, by decide⟩

/-- C6: `preprocess_text` leaves no two adjacent whitespace characters and
is idempotent. -/
theorem preprocess_text_collapses_and_idem (t : List Char) :
    noAdjacentWS (preprocess_text t) ∧
      preprocess_text (preprocess_text t) = preprocess_text t := by
  constructor
  · exact goodState_chain _ false (ppAux_goodState t false)
  · exact goodState_fix _ false (ppAux_goodState t false)

/-!
## Lemmas about the extractor
-/

theorem identAux_append (s : List Char) : (identAux s).1 ++ (identAux s).2 = s := by
  induction s using identAux.induct with
  | case1 => rfl
  | case2 c rest hdig ih =>
    rw [identAux.eq_def]
    simp only [if_pos hdig]
    simpa using ih
  | case3 d rest2 hd hdot ih =>
    rw [identAux.eq_def]
    simp only [if_neg hdot, if_pos rfl, if_pos hd]
    simpa using ih
  | case4 d rest2 hd hdot =>
    rw [identAux.eq_def]
    simp [hd, hdot]
  | case5 hdot =>
    rw [identAux.eq_def]
    simp [hdot]
  | case6 c rest hdig hne =>
    rw [identAux.eq_def]
    simp [hdig, hne]

theorem identAux_dotted (s : List Char) : dottedAux true (identAux s).1 = true := by
  induction s using identAux.induct with
  | case1 => rfl
  | case2 c rest hdig ih =>
    rw [identAux.eq_def]
    simp only [if_pos hdig]
    simpa [dottedAux, hdig] using ih
  | case3 d rest2 hd hdot ih =>
    rw [identAux.eq_def]
    simp only [if_neg hdot, if_pos rfl, if_pos hd]
    simpa [dottedAux, hd] using ih
  | case4 d rest2 hd hdot =>
    rw [identAux.eq_def]
    simp [hd, hdot, dottedAux]
  | case5 hdot =>
    rw [identAux.eq_def]
    simp [hdot, dottedAux]
  | case6 c rest hdig hne =>
    rw [identAux.eq_def]
    simp [hdig, hne, dottedAux]

theorem lastNonNl_split (l : List Char) :
    ∀ pre c suf, lastNonNl l = some (pre, c, suf) → l = pre ++ c :: suf := by
  induction l with
  | nil => intro pre c suf h; cases h
  | cons x rest ih =>
    intro pre c suf h
    simp only [lastNonNl] at h
    split at h
    · rename_i pre2 d suf2 hrec
      cases h
      rw [ih _ _ _ hrec]
      rfl
    · rename_i hrec
      split at h
      · cases h
        rfl
      · cases h

theorem titlePart_some (r2 ti a : List Char) (h : titlePart r2 = some (ti, a)) :
    ∃ w tl, r2 = w :: tl ∧ isPySpace w = true ∧ ∃ u, r2 = u ++ a ∧ u ≠ [] := by
  rw [titlePart.eq_def] at h
  split at h
  · cases h
  · rename_i w0 r2tl
    split at h
    · rename_i hw
      split at h
      · rename_i t r4 hdrop
        cases h
        refine ⟨w0, r2tl, rfl, hw,
          (w0 :: r2tl).takeWhile isPySpace ++ (t :: r4).takeWhile notNl, ?_, ?_⟩
        · rw [List.append_assoc, List.takeWhile_append_dropWhile,
            ← hdrop, List.takeWhile_append_dropWhile]
        · intro hcontra
          have htk : ((w0 :: r2tl).takeWhile isPySpace) = [] := by
            cases happ : (w0 :: r2tl).takeWhile isPySpace with
            | nil => rfl
            | cons y ys =>
              rw [happ] at hcontra
              cases hcontra
          rw [List.takeWhile_cons_of_pos hw] at htk
          cases htk
      · rename_i hdrop
        split at h
        · rename_i pre c2 suf hlast
          cases h
          have hsplit := lastNonNl_split r2tl pre c2 a hlast
          refine ⟨w0, r2tl, rfl, hw, w0 :: pre ++ [c2], ?_, by simp⟩
          rw [hsplit]
          simp
        · cases h
    · cases h

theorem matchAt_some (s i ti a : List Char)
    (h : matchAt s = some ((i, ti), a)) :
    isDottedIdent i = true ∧
      (∃ w b2, isPySpace w = true ∧ s = i ++ '.' :: w :: b2) ∧
      ∃ u, s = u ++ a ∧ u ≠ [] := by
  rw [matchAt.eq_def] at h
  split at h
  · cases h
  · rename_i c rest
    split at h
    · rename_i hc
      split at h
      · rename_i r1h r2 heq
        split at h
        · rename_i hdot
          subst hdot
          split at h
          · rename_i ti2 a2 htp
            cases h
            obtain ⟨w, tl, hr2, hw, u, hua, hne⟩ := titlePart_some r2 ti a htp
            have hrest : (identAux rest).1 ++ '.' :: r2 = rest := by
              have happ := identAux_append rest
              rw [heq] at happ
              exact happ
            have hdotted : isDottedIdent (c :: (identAux rest).1) = true := by
              simp only [isDottedIdent, dottedAux, hc, if_pos]
              exact identAux_dotted rest
            refine ⟨hdotted, ⟨w, tl, hw, ?_⟩,
              ⟨c :: (identAux rest).1 ++ '.' :: u, ?_, by simp⟩⟩
            · conv_lhs => rw [← hrest, hr2]
              simp
            · conv_lhs => rw [← hrest, hua]
              simp
          · cases h
        · cases h
      · cases h
    · cases h

theorem scanAux_mem (fuel : Nat) :
    ∀ s p, p ∈ scanAux fuel s →
      ∃ u s2 a, s = u ++ s2 ∧ matchAt s2 = some (p, a) := by
  induction fuel with
  | zero => intro s p h; simp [scanAux] at h
  | succ fuel ih =>
    intro s p h
    cases s with
    | nil => simp [scanAux] at h
    | cons c rest =>
      simp only [scanAux] at h
      cases hm : matchAt (c :: rest) with
      | some pa =>
        obtain ⟨q, a⟩ := pa
        rw [hm] at h
        simp only [] at h
        rcases List.mem_cons.1 h with rfl | htail
        · exact ⟨[], c :: rest, a, rfl, hm⟩
        · obtain ⟨u, s2, a2, hs, hm2⟩ := ih a p htail
          obtain ⟨_, _, u0, hu0, _⟩ := matchAt_some (c :: rest) q.1 q.2 a hm
          exact ⟨u0 ++ u, s2, a2, by rw [hu0, hs, List.append_assoc], hm2⟩
      | none =>
        rw [hm] at h
        simp only [] at h
        obtain ⟨u, s2, a2, hs, hm2⟩ := ih rest p h
        exact ⟨c :: u, s2, a2, by rw [hs]; rfl, hm2⟩

/-- C2: extracting from "1. Scope\n2.1. Payment Terms\n" returns exactly
the two clauses, in input order. -/
theorem extract_concrete_example :
    extract_clauses_and_titles ("1. Scope\n2.1. Payment Terms\n".data) =
      [("1".data, "Scope".data), ("2.1".data, "Payment Terms".data)] := by
  decide

/-- C3 (amended): every pair returned by `extract_clauses_and_titles` has
its identifier occurring in the text immediately followed by a period and a
whitespace character. -/
theorem extract_sep_whitespace (text : List Char) (p : List Char × List Char)
    (hp : p ∈ extract_clauses_and_titles text) :
    ∃ pre w suf, isPySpace w = true ∧ text = pre ++ p.1 ++ '.' :: w :: suf := by
  obtain ⟨u, s2, a, hs, hm⟩ := scanAux_mem text.length text p hp
  obtain ⟨_, ⟨w, b2, hw, hsplit⟩, _⟩ := matchAt_some s2 p.1 p.2 a hm
  refine ⟨u, w, b2, hw, ?_⟩
  rw [hs, hsplit, List.append_assoc]

theorem extract_sep_whitespace_witness :
    (("1".data, "A".data) ∈ extract_clauses_and_titles ("1. A\n".data)) ∧
      ∃ pre w suf, isPySpace w = true ∧
        "1. A\n".data = pre ++ ("1".data, "A".data).1 ++ '.' :: w :: suf :=
  ⟨by decide, extract_sep_whitespace _ _ (by decide)⟩

/-- C3 counterexample: the pattern `\.\s+` accepts a tab (any whitespace)
after the period, so "1.\tScope\n" yields the clause ("1", "Scope") even
though the identifier "1" is nowhere followed by a period and a space
character. -/
theorem extract_space_separator_cex :
    (("1".data, "Scope".data) ∈ extract_clauses_and_titles ("1.\tScope\n".data)) ∧
      ¬ ∃ pre suf, "1.\tScope\n".data = pre ++ "1".data ++ '.' :: ' ' :: suf := by
  constructor
  · decide
  · rintro ⟨pre, suf, hx⟩
    have hmem : (' ' : Char) ∈ pre ++ "1".data ++ '.' :: ' ' :: suf := by simp
    rw [← hx] at hmem
    revert hmem
    decide

/-- C4 (amended): every identifier returned by `extract_clauses_and_titles`
is a dotted numeric string: period-separated nonempty digit groups (each a
nonnegative integer, leading zeros and zero allowed). -/
theorem extract_ident_dotted (text : List Char) (p : List Char × List Char)
    (hp : p ∈ extract_clauses_and_titles text) :
    isDottedIdent p.1 = true := by
  obtain ⟨u, s2, a, hs, hm⟩ := scanAux_mem text.length text p hp
  exact (matchAt_some s2 p.1 p.2 a hm).1

theorem extract_ident_dotted_witness :
    (("2.1".data, "Payment Terms".data) ∈
        extract_clauses_and_titles ("1. Scope\n2.1. Payment Terms\n".data)) ∧
      isDottedIdent ("2.1".data, "Payment Terms".data).1 = true :=
  ⟨by decide,
    extract_ident_dotted ("1. Scope\n2.1. Payment Terms\n".data) _ (by decide)⟩

/-- C4 counterexample: `\d+` accepts "0", so "0. Scope\n" yields the clause
("0", "Scope") although the component "0" is not a positive integer. -/
theorem extract_positive_components_cex :
    (extract_clauses_and_titles ("0. Scope\n".data) = [("0".data, "Scope".data)]) ∧
      identAllPositive ("0".data) = false := by
  exact ⟨by decide, by decide⟩

/-- C7: input text under 50 characters yields the fixed sentinel message,
whatever the summarizer does (the result does not depend on the summarizer,
so the summarizer is not consulted). -/
theorem summary_short_input (summarize : List Char → Except (List Char) (List Char))
    (substituteEntity : List Char → List Char → List Char)
    (entities : List (List Char)) (text : List Char) (h : text.length < 50) :
    extract_detailed_summary summarize substituteEntity entities text = shortMsg := by
  have hlt : (preprocess_text text).length < 50 :=
    lt_of_le_of_lt (preprocess_length_le text) h
  simp only [extract_detailed_summary]
  rw [if_pos hlt]

theorem summary_short_input_witness :
    ("hi".data.length < 50) ∧
      extract_detailed_summary (fun t => Except.ok t) (fun e acc => acc) [] "hi".data
        = shortMsg :=
  ⟨by decide, summary_short_input _ _ _ _ (by decide)⟩

/-- C8: when the summarizer raises, the error is caught at the call
boundary and converted into a descriptive message string returned as the
result. -/
theorem summary_error_converted (summarize : List Char → Except (List Char) (List Char))
    (substituteEntity : List Char → List Char → List Char)
    (entities : List (List Char)) (text e : List Char)
    (hlen : ¬ (preprocess_text text).length < 50)
    (herr : summarize (preprocess_text text) = Except.error e) :
    extract_detailed_summary summarize substituteEntity entities text =
      "Summary generation failed: ".data ++ e := by
  simp only [extract_detailed_summary]
  rw [if_neg hlen, herr]

theorem summary_error_converted_witness :
    (¬ (preprocess_text (List.replicate 60 'a')).length < 50) ∧
      extract_detailed_summary (fun t => Except.error "boom".data) (fun e acc => acc) []
          (List.replicate 60 'a')
        = "Summary generation failed: ".data ++ "boom".data :=
  ⟨by decide, summary_error_converted _ _ _ _ _ (by decide) rfl⟩

/-- C10: the 50-character minimum is checked on the whitespace-collapsed
text, so a raw input of 50 or more characters whose collapsed form is under
50 characters still returns the sentinel, whatever the summarizer does. -/
theorem summary_collapsed_short (summarize : List Char → Except (List Char) (List Char))
    (substituteEntity : List Char → List Char → List Char)
    (entities : List (List Char)) (text : List Char)
    (hraw : 50 ≤ text.length) (hcol : (preprocess_text text).length < 50) :
    extract_detailed_summary summarize substituteEntity entities text = shortMsg := by
  simp only [extract_detailed_summary]
  rw [if_pos hcol]

theorem summary_collapsed_short_witness :
    (50 ≤ (List.replicate 60 ' ').length) ∧
      ((preprocess_text (List.replicate 60 ' ')).length < 50) ∧
      extract_detailed_summary (fun t => Except.ok t) (fun e acc => acc) []
          (List.replicate 60 ' ')
        = shortMsg :=
  ⟨by decide, by decide,
    summary_collapsed_short _ _ _ _ (by decide) (by decide)⟩
